import Mathlib

/-!
Verification development for the domain-modeling kernel of the
`template-hono` repository (Result, Entity/AggregateRoot, ValueObject,
Specification, and the validated identifier value objects CPF/CNPJ/Email).

Each definition is a shallow embedding of the corresponding TypeScript
source; machine integers are modelled with Nat/Int, fallible code with an
explicit Result structure mirroring `src/domain/building-blocks/result.ts`,
and stateful methods with explicit state passing.
-/

/-! ## Result (src/domain/building-blocks/result.ts)

The TS `Result<T>` stores `isSuccess`, `isFailure` (always `!isSuccess`,
set by the private constructor), an optional `error` string and an optional
`_value`.  Since `isFailure` is always derived, it is modelled as a
function; `value : Option T` models the possibly-`undefined` `_value`, and
`Result.ok none` is the TS `Result.ok()` call with the argument omitted. -/

structure Result (T : Type) where
  isSuccess : Bool
  error : Option String
  value : Option T
deriving DecidableEq

def Result.isFailure {T : Type} (r : Result T) : Bool := !r.isSuccess

def Result.ok {T : Type} (value : Option T) : Result T := ⟨true, none, value⟩

def Result.fail {T : Type} (error : String) : Result T := ⟨false, some error, none⟩

/-- `Result.combine` from result.ts lines 43-48: iterate over the list, return
the first result whose `isFailure` holds, otherwise `Result.ok()`. -/
def Result.combine {T : Type} : List (Result T) → Result T
  | [] => Result.ok none
  | r :: rest => if r.isFailure then r else Result.combine rest

/-! ## Entity identity equality (src/domain/building-blocks/entity.base.ts)

`Entity.equals` receives an optional other entity.  The JS semantics it
uses are: `null`/`undefined` gives false, reference equality (`this ===
object`) gives true, a non-`Entity` operand gives false, and otherwise the
two `_id` strings are compared.  An entity instance is modelled by a
reference token `ref` (JS object identity), the name of its concrete
subclass (recorded because claim C1 is about it; `equals` never looks at
it) and its `_id` string.  Every `EntityObj` models an object that passes
the `instanceof Entity` test. -/

structure EntityObj where
  ref : Nat
  subclass : String
  id : String
deriving DecidableEq

def Entity.equals (self : EntityObj) (object : Option EntityObj) : Bool :=
  match object with
  | none => false
  | some o => if self.ref == o.ref then true else self.id == o.id

/-! ## Entity.update and AggregateRoot
(src/domain/building-blocks/entity.base.ts lines 55-65 and
src/domain/building-blocks/aggregate-root.base.ts)

`Entity<T>` keeps `_id : string` and `props : T`.  The abstract
`validate` method supplied by the concrete subclass is a parameter, and
the TS spread-merge `{ ...this.props, ...props }` over a `Partial<T>`
patch is a parameter `merge`.  `update` returns the Result produced by
the method together with the state of the entity after the call. -/

structure EntityState (P : Type) where
  id : String
  props : P
deriving DecidableEq

def Entity.update {P Q : Type} (validate : P → Result Unit) (merge : P → Q → P)
    (e : EntityState P) (patch : Q) : Result Unit × EntityState P :=
  let newProps := merge e.props patch
  let validationResult := validate newProps
  if validationResult.isFailure then (validationResult, e)
  else (Result.ok none, { e with props := newProps })

/-- AggregateRoot extends Entity with `_domainEvents : DomainEvent[]`
(initially empty) and `_version : number` (initially 0); the event type is
a parameter `E`. -/
structure AggregateState (P E : Type) extends EntityState P where
  domainEvents : List E
  version : Nat
deriving DecidableEq

/-- `update` is inherited from Entity and touches only `props`. -/
def AggregateRoot.update {P Q E : Type} (validate : P → Result Unit) (merge : P → Q → P)
    (a : AggregateState P E) (patch : Q) : Result Unit × AggregateState P E :=
  let r := Entity.update validate merge a.toEntityState patch
  (r.1, { a with toEntityState := r.2 })

/-- `addDomainEvent` pushes the event onto the buffer (aggregate-root.base.ts line 33). -/
def AggregateRoot.addDomainEvent {P E : Type} (a : AggregateState P E) (e : E) :
    AggregateState P E :=
  { a with domainEvents := a.domainEvents ++ [e] }

/-- `clearEvents` resets the buffer (aggregate-root.base.ts lines 51-53). -/
def AggregateRoot.clearEvents {P E : Type} (a : AggregateState P E) : AggregateState P E :=
  { a with domainEvents := [] }

/-- `markAsCommitted` increments `_version` and then calls `clearEvents()`
(aggregate-root.base.ts lines 59-62). -/
def AggregateRoot.markAsCommitted {P E : Type} (a : AggregateState P E) : AggregateState P E :=
  AggregateRoot.clearEvents { a with version := a.version + 1 }

/-! ## Specification (src/domain/building-blocks/specification.base.ts)

The abstract base class with its single abstract method `isSatisfiedBy`
is modelled as the `base` constructor holding the concrete predicate; the
`AndSpecification` / `OrSpecification` / `NotSpecification` composite
classes are the other constructors, each holding its operand
specification objects exactly as the TS classes hold `left` / `right` /
`wrapped` fields. -/

inductive Specification (T : Type) where
  | base (isSatisfiedBy : T → Bool)
  | andSpec (left right : Specification T)
  | orSpec (left right : Specification T)
  | notSpec (wrapped : Specification T)

def Specification.isSatisfiedBy {T : Type} : Specification T → T → Bool
  | .base p, candidate => p candidate
  | .andSpec l r, candidate => l.isSatisfiedBy candidate && r.isSatisfiedBy candidate
  | .orSpec l r, candidate => l.isSatisfiedBy candidate || r.isSatisfiedBy candidate
  | .notSpec w, candidate => !(w.isSatisfiedBy candidate)

def Specification.and {T : Type} (self other : Specification T) : Specification T :=
  .andSpec self other

def Specification.or {T : Type} (self other : Specification T) : Specification T :=
  .orSpec self other

def Specification.not {T : Type} (self : Specification T) : Specification T :=
  .notSpec self

/-! ## Email (src/domain/value-object/email.value-object.ts)

`Email.create` normalizes with `email.toLowerCase().trim()` and validates
against the regular expression `^[^\s@]+@[^\s@]+\.[^\s@]+$`.  The regex
matches exactly the strings of the form `A ++ "@" ++ B ++ "." ++ C` with
`A`, `B`, `C` nonempty and free of whitespace and `@`; equivalently: the
string splits on `@` into exactly two nonempty whitespace-free parts and
the part after the `@` contains a dot that is neither its first nor its
last character.  The created Email's `value` is the normalized string, so
`create` is modelled as returning that string.  String operations are
carried out on the underlying character list so that everything reduces
computationally (`Char.isWhitespace` models the JS `\s` class and the
`trim` character set on the ASCII whitespace relevant here). -/

def lowerTrim (l : List Char) : List Char :=
  (((l.map Char.toLower).dropWhile Char.isWhitespace).reverse.dropWhile
    Char.isWhitespace).reverse

def Email.normalize (email : String) : String := ⟨lowerTrim email.data⟩

/-- Splitting a character list at every occurrence of a separator, the
semantics of `String.prototype.split`, used to express the regex test. -/
def splitOnChar (sep : Char) : List Char → List (List Char)
  | [] => [[]]
  | c :: rest =>
    match splitOnChar sep rest with
    | [] => [[c]]
    | h :: t => if c == sep then [] :: h :: t else (c :: h) :: t

def Email.hasInteriorDot (l : List Char) : Bool :=
  ((l.drop 1).dropLast).contains '.'

def Email.isValid (email : String) : Bool :=
  match splitOnChar '@' email.data with
  | [localPart, domainPart] =>
    !localPart.isEmpty && localPart.all (fun c => !c.isWhitespace) &&
    !domainPart.isEmpty && domainPart.all (fun c => !c.isWhitespace) &&
    Email.hasInteriorDot domainPart
  | _ => false

def Email.create (email : String) : Result String :=
  let normalized := Email.normalize email
  if Email.isValid normalized then Result.ok (some normalized)
  else Result.fail "Invalid email address"

/-! # Theorems -/

/-- Claim C4: for every list of Results, `Result.combine` returns the first
element (in input order) whose `isFailure` is true, returned unchanged,
and a success when no element is a failure; in particular
`combine([ok(), ok(), fail("x"), ok()])` returns the `fail("x")` result. -/
theorem result_combine_first_failure :
    (∀ (T : Type) (results : List (Result T)),
      Result.combine results = (results.find? (fun r => r.isFailure)).getD (Result.ok none)) ∧
    Result.combine [Result.ok none, Result.ok none, Result.fail "x",
      Result.ok (none : Option Unit)] = Result.fail "x" := by
  constructor
  · intro T results
    induction results with
    | nil => rfl
    | cons r rest ih =>
      by_cases h : r.isFailure = true
      · simp [Result.combine, List.find?, h]
      · simp only [Bool.not_eq_true] at h
        simp [Result.combine, List.find?, h, ih]
  · rfl

/-- Claim C10: when no Result in the list is a failure, `Result.combine`
returns a freshly created success Result carrying no value (the TS code
returns `Result.ok()`, whose payload is `undefined`), discarding the
values carried by the individual successes. -/
theorem result_combine_all_success {T : Type} (results : List (Result T))
    (h : ∀ r ∈ results, r.isFailure = false) :
    Result.combine results = Result.ok none := by
  induction results with
  | nil => rfl
  | cons r rest ih =>
    have hr : r.isFailure = false := h r (List.mem_cons_self r rest)
    rw [Result.combine, hr]
    simp only [Bool.false_eq_true, if_false]
    exact ih (fun x hx => h x (List.mem_cons_of_mem r hx))

/-- Witness for C10 at a concrete list whose successes carry values. -/
theorem result_combine_all_success_witness :
    Result.combine [Result.ok (some 1), Result.ok (some 2)] = Result.ok (none : Option Nat) :=
  result_combine_all_success [Result.ok (some 1), Result.ok (some 2)] (by decide)

/-- Claim C1 counterexample: two entity instances of unrelated concrete
subclasses (distinct subclass tags, distinct object references) carrying
the same identifier string are reported equal by `Entity.equals`, whereas
the claim says equals must return false for them. -/
theorem entity_equals_unrelated_subclass_counterexample :
    (EntityObj.mk 0 "UserEntity" "01HZXK7V9Q").subclass ≠
      (EntityObj.mk 1 "OrderEntity" "01HZXK7V9Q").subclass ∧
    (EntityObj.mk 0 "UserEntity" "01HZXK7V9Q").id =
      (EntityObj.mk 1 "OrderEntity" "01HZXK7V9Q").id ∧
    Entity.equals (EntityObj.mk 0 "UserEntity" "01HZXK7V9Q")
      (some (EntityObj.mk 1 "OrderEntity" "01HZXK7V9Q")) = true := by
  refine ⟨?_, rfl, rfl⟩
  decide

/-- Claim C1 (amended): `Entity.equals` verifies only that the operand is
some Entity instance (the `instanceof Entity` check), never the concrete
hierarchy, and then compares identifiers, so any two entity instances with
the same identifier string compare equal regardless of their concrete
subclasses. -/
theorem entity_equals_by_id_only (a b : EntityObj) (h : a.id = b.id) :
    Entity.equals a (some b) = true := by
  unfold Entity.equals
  by_cases hr : a.ref == b.ref
  · simp [hr]
  · simp [hr, h]

/-- Witness for the amended C1 at concrete entities of unrelated concrete
subclasses. -/
theorem entity_equals_by_id_only_witness :
    (EntityObj.mk 2 "CustomerEntity" "01J5").id = (EntityObj.mk 3 "InvoiceEntity" "01J5").id ∧
    Entity.equals (EntityObj.mk 2 "CustomerEntity" "01J5")
      (some (EntityObj.mk 3 "InvoiceEntity" "01J5")) = true :=
  ⟨rfl, entity_equals_by_id_only (EntityObj.mk 2 "CustomerEntity" "01J5")
    (EntityObj.mk 3 "InvoiceEntity" "01J5") rfl⟩

/-- Claim C3: when validating the merged props fails, `Entity.update`
returns that failure Result and leaves the entity (id and props) exactly
as it was; for an aggregate root the inherited update also leaves the
event buffer and version untouched. -/
theorem entity_update_failure_preserves_state {P Q E : Type}
    (validate : P → Result Unit) (merge : P → Q → P)
    (e : EntityState P) (a : AggregateState P E) (patch : Q)
    (he : (validate (merge e.props patch)).isFailure = true)
    (ha : (validate (merge a.toEntityState.props patch)).isFailure = true) :
    Entity.update validate merge e patch = (validate (merge e.props patch), e) ∧
    AggregateRoot.update validate merge a patch =
      (validate (merge a.toEntityState.props patch), a) := by
  constructor
  · simp [Entity.update, he]
  · simp [AggregateRoot.update, Entity.update, ha]

/-- Concrete validator used only to witness C3: rejects props above 5. -/
def boundValidate (n : Nat) : Result Unit :=
  if n > 5 then Result.fail "too big" else Result.ok none

/-- Witness for C3: the validator above, a merge that adds the patch, a
concrete entity and aggregate. -/
theorem entity_update_failure_preserves_state_witness :
    (boundValidate (3 + 10)).isFailure = true ∧
    Entity.update boundValidate (fun p q => p + q) (EntityState.mk "id1" (3 : Nat)) 10 =
      (Result.fail "too big", EntityState.mk "id1" 3) ∧
    AggregateRoot.update boundValidate (fun p q => p + q)
      (AggregateState.mk (EntityState.mk "id1" (3 : Nat)) ["created"] 0) 10 =
      (Result.fail "too big", AggregateState.mk (EntityState.mk "id1" 3) ["created"] 0) := by
  have h := entity_update_failure_preserves_state boundValidate
    (fun p q => p + q) (EntityState.mk "id1" (3 : Nat))
    (AggregateState.mk (EntityState.mk "id1" (3 : Nat)) ["created"] 0) 10
    (by decide) (by decide)
  exact ⟨by decide, by rw [h.1]; decide, by rw [h.2]; decide⟩

/-- Claim C5: for every aggregate state, with any number of pending domain
events and any version v, `markAsCommitted` empties the event buffer and
sets the version to exactly v+1 (the underlying entity state is untouched). -/
theorem aggregate_markAsCommitted_spec {P E : Type} (a : AggregateState P E) :
    (AggregateRoot.markAsCommitted a).domainEvents = [] ∧
    (AggregateRoot.markAsCommitted a).version = a.version + 1 ∧
    (AggregateRoot.markAsCommitted a).toEntityState = a.toEntityState := by
  exact ⟨rfl, rfl, rfl⟩

/-- Claim C9: for all specifications and candidates,
`SpecA.and(SpecB).not().isSatisfiedBy(c)` is the boolean negation of
`SpecA.isSatisfiedBy(c) && SpecB.isSatisfiedBy(c)`; moreover the `and` /
`or` / `not` combinators build new composite specification objects that
hold the operand specifications unchanged (the model is pure, so operand
mutation is impossible by construction). -/
theorem specification_not_and_demorgan :
    ∀ (T : Type) (specA specB : Specification T) (c : T),
      ((specA.and specB).not).isSatisfiedBy c =
        !(specA.isSatisfiedBy c && specB.isSatisfiedBy c) ∧
      specA.and specB = Specification.andSpec specA specB ∧
      specA.or specB = Specification.orSpec specA specB ∧
      specA.not = Specification.notSpec specA := by
  intro T specA specB c
  exact ⟨rfl, rfl, rfl, rfl⟩

/-- Claim C8: `Email.create` lower-cases and trims before validating, so
any two raw inputs with the same normalization (inputs differing only in
letter case and surrounding whitespace) yield identical outcomes; and
`Email.create(" USER@Example.COM ")` succeeds with value
`"user@example.com"`. -/
theorem email_create_normalizes :
    (∀ s1 s2 : String, Email.normalize s1 = Email.normalize s2 →
      Email.create s1 = Email.create s2) ∧
    Email.create " USER@Example.COM " = Result.ok (some "user@example.com") := by
  constructor
  · intro s1 s2 h
    unfold Email.create
    rw [h]
  · rfl

/-- Witness for C8 at two concrete raw inputs differing only in case and
surrounding whitespace. -/
theorem email_create_normalizes_witness :
    Email.normalize "A@b.cd" = Email.normalize "  a@B.CD " ∧
    Email.create "A@b.cd" = Email.create "  a@B.CD " :=
  ⟨rfl, email_create_normalizes.1 "A@b.cd" "  a@B.CD " rfl⟩

/-! ## CPF and CNPJ (src/domain/value-object/cpf.value-object.ts,
cnpj.value-object.ts)

Both `create` factories first strip every non-digit character
(`replace(/\D/g, '')`), then run the private static `isValid` on the
cleaned string, and on success build the value object whose `value` is
the cleaned string; `create` is therefore modelled as returning the
cleaned string as the Result payload.  `split('').map(Number)` applied to
a digits-only string is modelled by `toDigits` (code point minus 48); the
`digit === undefined` / `factor === undefined` guards of the source are
unreachable once the length test has passed, because every index accessed
is below the checked length.  The regex `^(\d)\1+$` matches exactly the
strings made of one digit repeated at least twice. -/

def digitsOnly (s : String) : String := ⟨s.data.filter Char.isDigit⟩

def toDigits (s : String) : List Nat := s.data.map (fun c => c.toNat - 48)

def allSameDigitRegex (s : String) : Bool :=
  match s.data with
  | [] => false
  | c :: rest => c.isDigit && !rest.isEmpty && rest.all (fun x => x == c)

def checkFromSum (sum : Nat) : Nat := if sum % 11 < 2 then 0 else 11 - sum % 11

def CPF.isValid (cpf : String) : Bool :=
  if cpf.length != 11 then false
  else if allSameDigitRegex cpf then false
  else
    let digits := toDigits cpf
    let sum1 := (List.range 9).foldl (fun sum i => sum + digits.getD i 0 * (10 - i)) 0
    let check1 := checkFromSum sum1
    if check1 != digits.getD 9 0 then false
    else
      let sum2 := (List.range 10).foldl (fun sum i => sum + digits.getD i 0 * (11 - i)) 0
      let check2 := checkFromSum sum2
      check2 == digits.getD 10 0

def CPF.create (cpf : String) : Result String :=
  let cleaned := digitsOnly cpf
  if CPF.isValid cleaned then Result.ok (some cleaned) else Result.fail "Invalid CPF"

def CNPJ.factors1 : List Nat := [5, 4, 3, 2, 9, 8, 7, 6, 5, 4, 3, 2]

def CNPJ.factors2 : List Nat := [6, 5, 4, 3, 2, 9, 8, 7, 6, 5, 4, 3, 2]

def CNPJ.isValid (cnpj : String) : Bool :=
  if cnpj.length != 14 then false
  else if allSameDigitRegex cnpj then false
  else
    let digits := toDigits cnpj
    let sum1 := (List.range 12).foldl
      (fun sum i => sum + digits.getD i 0 * CNPJ.factors1.getD i 0) 0
    let check1 := checkFromSum sum1
    if check1 != digits.getD 12 0 then false
    else
      let sum2 := (List.range 13).foldl
        (fun sum i => sum + digits.getD i 0 * CNPJ.factors2.getD i 0) 0
      let check2 := checkFromSum sum2
      check2 == digits.getD 13 0

def CNPJ.create (cnpj : String) : Result String :=
  let cleaned := digitsOnly cnpj
  if CNPJ.isValid cleaned then Result.ok (some cleaned) else Result.fail "Invalid CNPJ"

/-! Specification-side definitions for C2 and C6, taken from the spec's
words: the check digit is the remainder-mod-11 of the weighted sum,
mapped to 0 when the remainder is below 2 and to 11 minus the remainder
otherwise; a candidate is valid when the digits-only normalization has
the right length, is not one digit repeated throughout, and both check
digits match. -/

def specCheckDigit (r : Nat) : Nat := if r < 2 then 0 else 11 - r

def CPF.specSum1 (d : List Nat) : Nat :=
  ((List.range 9).map (fun i => d.getD i 0 * (10 - i))).sum

def CPF.specSum2 (d : List Nat) : Nat :=
  ((List.range 10).map (fun i => d.getD i 0 * (11 - i))).sum

def CPF.specValid (t : String) : Prop :=
  t.length = 11 ∧ (¬ ∃ k, toDigits t = List.replicate 11 k) ∧
  (toDigits t).getD 9 0 = specCheckDigit (CPF.specSum1 (toDigits t) % 11) ∧
  (toDigits t).getD 10 0 = specCheckDigit (CPF.specSum2 (toDigits t) % 11)

def CNPJ.specSum1 (d : List Nat) : Nat :=
  ((List.range 12).map (fun i => d.getD i 0 * CNPJ.factors1.getD i 0)).sum

def CNPJ.specSum2 (d : List Nat) : Nat :=
  ((List.range 13).map (fun i => d.getD i 0 * CNPJ.factors2.getD i 0)).sum

def CNPJ.specValid (t : String) : Prop :=
  t.length = 14 ∧ (¬ ∃ k, toDigits t = List.replicate 14 k) ∧
  (toDigits t).getD 12 0 = specCheckDigit (CNPJ.specSum1 (toDigits t) % 11) ∧
  (toDigits t).getD 13 0 = specCheckDigit (CNPJ.specSum2 (toDigits t) % 11)

/-! Bridging lemmas for the CPF/CNPJ equivalences. -/

theorem string_length_eq_data (s : String) : s.length = s.data.length := by
  cases s
  rfl

theorem foldl_add_map_sum (f : Nat → Nat) (l : List Nat) (a : Nat) :
    l.foldl (fun acc i => acc + f i) a = a + (l.map f).sum := by
  induction l generalizing a with
  | nil => simp
  | cons x xs ih => simp [List.foldl, ih, Nat.add_assoc]

theorem digitsOnly_all_digits (s : String) : ∀ c ∈ (digitsOnly s).data, c.isDigit = true := by
  intro c hc
  exact List.of_mem_filter hc

theorem char_isDigit_toNat_bounds (c : Char) (h : c.isDigit = true) :
    48 ≤ c.toNat ∧ c.toNat ≤ 57 := by
  simp [Char.isDigit] at h
  exact ⟨h.1, h.2⟩

theorem char_eq_of_toNat_eq (c1 c2 : Char) (h : c1.toNat = c2.toNat) : c1 = c2 := by
  apply Char.eq_of_val_eq
  apply UInt32.eq_of_toBitVec_eq
  apply BitVec.eq_of_toNat_eq
  exact h

theorem digit_char_eq_of_digitVal_eq (c1 c2 : Char) (h1 : c1.isDigit = true)
    (h2 : c2.isDigit = true) (h : c1.toNat - 48 = c2.toNat - 48) : c1 = c2 := by
  have b1 := char_isDigit_toNat_bounds c1 h1
  have b2 := char_isDigit_toNat_bounds c2 h2
  exact char_eq_of_toNat_eq c1 c2 (by omega)

theorem allSameDigitRegex_iff_replicate (s : String) (n : Nat) (hn : 2 ≤ n)
    (hd : ∀ c ∈ s.data, c.isDigit = true) (hl : s.data.length = n) :
    allSameDigitRegex s = true ↔ ∃ k, toDigits s = List.replicate n k := by
  rcases hdata : s.data with _ | ⟨c, rest⟩
  · rw [hdata] at hl
    simp at hl
    omega
  · have hc : c.isDigit = true := hd c (by rw [hdata]; exact List.mem_cons_self c rest)
    have hrest : rest.length = n - 1 := by
      rw [hdata] at hl
      simp at hl
      omega
    constructor
    · intro h
      unfold allSameDigitRegex at h
      rw [hdata] at h
      simp only [Bool.and_eq_true, List.all_eq_true] at h
      refine ⟨c.toNat - 48, ?_⟩
      unfold toDigits
      rw [hdata]
      apply List.eq_replicate_iff.mpr
      refine ⟨by simp; omega, ?_⟩
      intro b hb
      simp only [List.map_cons, List.mem_cons] at hb
      rcases hb with hb | hb
      · exact hb
      · obtain ⟨x, hx, hxb⟩ := List.mem_map.mp hb
        have : x = c := by
          have := h.2 x hx
          exact eq_of_beq this
        rw [← hxb, this]
    · rintro ⟨k, hk⟩
      unfold toDigits at hk
      rw [hdata] at hk
      have hrep : List.replicate n k = k :: List.replicate (n - 1) k := by
        cases n with
        | zero => omega
        | succ m => simp [List.replicate]
      rw [hrep] at hk
      simp only [List.map_cons, List.cons.injEq] at hk
      unfold allSameDigitRegex
      rw [hdata]
      simp only [Bool.and_eq_true, List.all_eq_true]
      refine ⟨⟨hc, ?_⟩, ?_⟩
      · cases rest with
        | nil => simp at hrest; omega
        | cons y ys => simp [List.isEmpty]
      · intro x hx
        have hxk : x.toNat - 48 = k := by
          have hmem : x.toNat - 48 ∈ List.replicate (n - 1) k := by
            rw [← hk.2]
            exact List.mem_map.mpr ⟨x, hx, rfl⟩
          exact List.eq_of_mem_replicate hmem
        have hck : c.toNat - 48 = k := hk.1
        have : x = c :=
          digit_char_eq_of_digitVal_eq x c (hd x (by rw [hdata]; exact List.mem_cons_of_mem c hx))
            hc (by rw [hxk, hck])
        simp [this]

theorem checkFromSum_eq_spec (sum : Nat) : checkFromSum sum = specCheckDigit (sum % 11) := rfl

theorem check_ite_iff (a b d9 d10 : Nat) :
    ((if a != d9 then false else (b == d10)) = true) ↔ (d9 = a ∧ d10 = b) := by
  by_cases h : a = d9
  · subst h
    simp only [bne_self_eq_false, Bool.false_eq_true, if_false, beq_iff_eq,
      eq_self_iff_true, true_and]
    exact eq_comm
  · have hb : (a != d9) = true := by
      simp [bne_iff_ne]
      exact h
    simp [hb]
    intro hh
    exact absurd hh.symm h

theorem cpf_isValid_iff_spec (t : String) (hd : ∀ c ∈ t.data, c.isDigit = true) :
    CPF.isValid t = true ↔ CPF.specValid t := by
  unfold CPF.isValid CPF.specValid
  by_cases hlen : t.length = 11
  · have hdl : t.data.length = 11 := by rw [← string_length_eq_data]; exact hlen
    have hiff := allSameDigitRegex_iff_replicate t 11 (by omega) hd hdl
    by_cases hsame : allSameDigitRegex t = true
    · have hrep := hiff.mp hsame
      apply iff_of_false
      · intro h
        simp [hsame, hlen] at h
      · intro hspec
        exact absurd hrep hspec.2.1
    · have hrep : ¬ ∃ k, toDigits t = List.replicate 11 k := fun hk => hsame (hiff.mpr hk)
      simp only [hlen, bne_self_eq_false, Bool.false_eq_true, if_false,
        Bool.not_eq_true] at hsame ⊢
      rw [hsame]
      simp only [Bool.false_eq_true, if_false, true_and]
      rw [foldl_add_map_sum, foldl_add_map_sum, Nat.zero_add, Nat.zero_add,
        checkFromSum_eq_spec, checkFromSum_eq_spec]
      rw [check_ite_iff]
      unfold CPF.specSum1 CPF.specSum2
      constructor
      · intro h
        exact ⟨hrep, h.1, h.2⟩
      · intro h
        exact ⟨h.2.1, h.2.2⟩
  · have h1 : (t.length != 11) = true := by
      simp [bne_iff_ne]
      exact hlen
    simp [h1, hlen]

/-- Claim C2: for every string s, `CPF.create(s)` succeeds iff the
digits-only normalization d of s has length 11, is not one digit repeated
eleven times, digit 9 equals the first mod-11 check digit (weighted sum
with weights 10 down to 2 over digits 0..8, remainder mod 11, mapped to 0
when the remainder is below 2, else 11 minus the remainder) and digit 10
equals the analogous second check digit over digits 0..9 with weights 11
down to 2; on success the created CPF's `value` is d. -/
theorem cpf_create_spec (s : String) :
    ((CPF.create s).isSuccess = true ↔ CPF.specValid (digitsOnly s)) ∧
    ((CPF.create s).isSuccess = true → (CPF.create s).value = some (digitsOnly s)) := by
  have hiff := cpf_isValid_iff_spec (digitsOnly s) (digitsOnly_all_digits s)
  constructor
  · rw [← hiff]
    unfold CPF.create
    by_cases h : CPF.isValid (digitsOnly s) = true
    · simp [h, Result.ok]
    · simp [h, Result.fail]
  · unfold CPF.create
    by_cases h : CPF.isValid (digitsOnly s) = true
    · simp [h, Result.ok]
    · simp [h, Result.fail]

/-- Witness for C2 at the canonical valid CPF 529.982.247-25. -/
theorem cpf_create_spec_witness :
    (CPF.create "529.982.247-25").isSuccess = true ∧
    (CPF.create "529.982.247-25").value = some "52998224725" :=
  ⟨by decide, (cpf_create_spec "529.982.247-25").2 (by decide)⟩

theorem cnpj_isValid_iff_spec (t : String) (hd : ∀ c ∈ t.data, c.isDigit = true) :
    CNPJ.isValid t = true ↔ CNPJ.specValid t := by
  unfold CNPJ.isValid CNPJ.specValid
  by_cases hlen : t.length = 14
  · have hdl : t.data.length = 14 := by rw [← string_length_eq_data]; exact hlen
    have hiff := allSameDigitRegex_iff_replicate t 14 (by omega) hd hdl
    by_cases hsame : allSameDigitRegex t = true
    · have hrep := hiff.mp hsame
      apply iff_of_false
      · intro h
        simp [hsame, hlen] at h
      · intro hspec
        exact absurd hrep hspec.2.1
    · have hrep : ¬ ∃ k, toDigits t = List.replicate 14 k := fun hk => hsame (hiff.mpr hk)
      simp only [hlen, bne_self_eq_false, Bool.false_eq_true, if_false,
        Bool.not_eq_true] at hsame ⊢
      rw [hsame]
      simp only [Bool.false_eq_true, if_false, true_and]
      rw [foldl_add_map_sum, foldl_add_map_sum, Nat.zero_add, Nat.zero_add,
        checkFromSum_eq_spec, checkFromSum_eq_spec]
      rw [check_ite_iff]
      unfold CNPJ.specSum1 CNPJ.specSum2
      constructor
      · intro h
        exact ⟨hrep, h.1, h.2⟩
      · intro h
        exact ⟨h.2.1, h.2.2⟩
  · have h1 : (t.length != 14) = true := by
      simp [bne_iff_ne]
      exact hlen
    simp [h1, hlen]

/-- Claim C6: for every string, `CNPJ.create` succeeds iff the digits-only
normalization has length 14, is not one digit repeated, digit 12 matches
the mod-11 check digit with weights [5,4,3,2,9,8,7,6,5,4,3,2] over digits
0..11, and digit 13 matches the check digit with weights
[6,5,4,3,2,9,8,7,6,5,4,3,2] over digits 0..12; in particular
`CNPJ.create("11222333000181")` succeeds and changing its last digit to
any other digit makes create fail. -/
theorem cnpj_create_spec :
    (∀ s : String,
      ((CNPJ.create s).isSuccess = true ↔ CNPJ.specValid (digitsOnly s)) ∧
      ((CNPJ.create s).isSuccess = true → (CNPJ.create s).value = some (digitsOnly s))) ∧
    (CNPJ.create "11222333000181").isSuccess = true ∧
    (∀ d : Fin 10, d.val ≠ 1 →
      (CNPJ.create (String.push "1122233300018" (Char.ofNat (48 + d.val)))).isSuccess
        = false) := by
  refine ⟨?_, by decide, by decide⟩
  intro s
  have hiff := cnpj_isValid_iff_spec (digitsOnly s) (digitsOnly_all_digits s)
  constructor
  · rw [← hiff]
    unfold CNPJ.create
    by_cases h : CNPJ.isValid (digitsOnly s) = true
    · simp [h, Result.ok]
    · simp [h, Result.fail]
  · unfold CNPJ.create
    by_cases h : CNPJ.isValid (digitsOnly s) = true
    · simp [h, Result.ok]
    · simp [h, Result.fail]

/-- Witness for C6 at the canonical valid CNPJ 11222333000181. -/
theorem cnpj_create_spec_witness :
    (CNPJ.create "11222333000181").value = some "11222333000181" ∧
    CNPJ.specValid (digitsOnly "11222333000181") :=
  ⟨(cnpj_create_spec.1 "11222333000181").2 (by decide),
   (cnpj_create_spec.1 "11222333000181").1.mp (by decide)⟩

/-! ## ValueObject structural equality (src/domain/building-blocks/entity.base.ts
lines 97-164)

`ValueObject.equals` delegates to the private `shallowEqual`, which
compares the two props records key by key: both `Date` → compare
`getTime()`; both `ValueObject` → delegate to `equals` (which compares
their own props records); both arrays → `arrayEquals`, which uses
value-object equality for value-object element pairs and `!==` otherwise;
both non-null objects → recursive `shallowEqual` over `Object.keys`
(which for a `Date` is the empty record, for a `ValueObject` instance the
single own property `props`, and for an array its stringified indices);
anything else → strict equality `===`, which for primitives is value
equality and for an object against a primitive is false.  JS values are
modelled by the nested inductive `JVal`; object identity (reference
equality of distinct but structurally equal objects, which `===` and the
non-value-object array branch observe) is the one JS feature a pure model
cannot see, so the claim's theorems are stated over well-formed values
(`JVal.wf`) whose arrays hold only primitives and nested value objects —
exactly the shapes claim C7 enumerates — where model equality and JS
deep equality coincide.  The comparison functions recurse through
`Object.keys` views that are not structurally smaller (a ValueObject
contributes `[("props", record)]`), so they are defined by well-founded
recursion on an explicit measure. -/
inductive JVal where
  | vnull
  | vundef
  | vbool (b : Bool)
  | vnum (n : Int)
  | vstr (s : String)
  | vdate (t : Int)
  | vvo (props : List (String × JVal))
  | varr (elems : List JVal)
  | vobj (fields : List (String × JVal))

mutual
def JVal.measure : JVal → Nat
  | .vvo p => JVal.recMeasure p + 3
  | .varr l => JVal.arrMeasure l + 1
  | .vobj f => JVal.recMeasure f + 1
  | .vdate _ => 1
  | _ => 0
def JVal.recMeasure : List (String × JVal) → Nat
  | [] => 0
  | (_, v) :: rest => JVal.measure v + 1 + JVal.recMeasure rest
def JVal.arrMeasure : List JVal → Nat
  | [] => 0
  | v :: rest => JVal.measure v + 1 + JVal.arrMeasure rest
end

def JVal.isObjectTy : JVal → Bool
  | .vdate _ => true
  | .vvo _ => true
  | .varr _ => true
  | .vobj _ => true
  | _ => false

def JVal.isLeaf : JVal → Bool
  | .vnull | .vundef | .vbool _ | .vnum _ | .vstr _ | .vdate _ => true
  | _ => false

def JVal.isPrim : JVal → Bool
  | .vnull | .vundef | .vbool _ | .vnum _ | .vstr _ => true
  | _ => false

def JVal.isVOTy : JVal → Bool
  | .vvo _ => true
  | _ => false

def JVal.strictEq : JVal → JVal → Bool
  | .vnull, .vnull => true
  | .vundef, .vundef => true
  | .vbool a, .vbool b => a == b
  | .vnum a, .vnum b => a == b
  | .vstr a, .vstr b => a == b
  | _, _ => false

def JVal.indexEntries : Nat → List JVal → List (String × JVal)
  | _, [] => []
  | i, v :: rest => (toString i, v) :: JVal.indexEntries (i + 1) rest

def JVal.jsEntries : JVal → List (String × JVal)
  | .vdate _ => []
  | .vvo p => [("props", JVal.vobj p)]
  | .varr l => JVal.indexEntries 0 l
  | .vobj f => f
  | _ => []

theorem measure_lookup_getD_le (o : List (String × JVal)) (k : String) :
    ((o.lookup k).getD JVal.vundef).measure ≤ JVal.recMeasure o := by
  induction o with
  | nil => simp [List.lookup, JVal.measure, JVal.recMeasure]
  | cons kv rest ih =>
    obtain ⟨k', v⟩ := kv
    by_cases h : (k == k') = true
    · simp [List.lookup, h, JVal.recMeasure]
      omega
    · simp only [Bool.not_eq_true] at h
      simp [List.lookup, h, JVal.recMeasure]
      omega

theorem recMeasure_indexEntries (i : Nat) (l : List JVal) :
    JVal.recMeasure (JVal.indexEntries i l) = JVal.arrMeasure l := by
  induction l generalizing i with
  | nil => rfl
  | cons v rest ih => simp [JVal.indexEntries, JVal.recMeasure, JVal.arrMeasure, ih]

theorem recMeasure_jsEntries_lt (v : JVal) (h : v.isObjectTy = true) :
    JVal.recMeasure v.jsEntries < v.measure := by
  cases v <;> simp_all [JVal.isObjectTy, JVal.jsEntries, JVal.measure, JVal.recMeasure,
    recMeasure_indexEntries]

mutual
def JVal.propValEq : JVal → JVal → Bool
  | .vdate t1, .vdate t2 => t1 == t2
  | .vvo p1, .vvo p2 => JVal.shallowEqual p1 p2
  | .varr l1, .varr l2 => JVal.arrayEquals l1 l2
  | v1, v2 =>
    if h : (v1.isObjectTy && v2.isObjectTy) = true then
      JVal.shallowEqual v1.jsEntries v2.jsEntries
    else JVal.strictEq v1 v2
termination_by v1 v2 => v1.measure + v2.measure
decreasing_by
  all_goals simp_wf
  all_goals first
    | omega
    | (simp [JVal.measure, JVal.recMeasure, JVal.arrMeasure] <;> omega)
    | (have hlk := measure_lookup_getD_le o2 key; simp [JVal.recMeasure] <;> omega)
    | (simp only [Bool.and_eq_true] at h
       have h1 := recMeasure_jsEntries_lt v1 h.1
       have h2 := recMeasure_jsEntries_lt v2 h.2
       omega)
def JVal.shallowEqual (o1 o2 : List (String × JVal)) : Bool :=
  (o1.length == o2.length) && JVal.shallowEqualGo o1 o2
termination_by JVal.recMeasure o1 + JVal.recMeasure o2 + 1
decreasing_by
  all_goals simp_wf
  all_goals first
    | omega
    | (simp [JVal.measure, JVal.recMeasure, JVal.arrMeasure] <;> omega)
    | (have hlk := measure_lookup_getD_le o2 key; simp [JVal.recMeasure] <;> omega)
    | (simp only [Bool.and_eq_true] at h
       have h1 := recMeasure_jsEntries_lt v1 h.1
       have h2 := recMeasure_jsEntries_lt v2 h.2
       omega)
def JVal.shallowEqualGo : List (String × JVal) → List (String × JVal) → Bool
  | [], _ => true
  | (key, val1) :: rest, o2 =>
    JVal.propValEq val1 ((o2.lookup key).getD JVal.vundef) && JVal.shallowEqualGo rest o2
termination_by o1 o2 => JVal.recMeasure o1 + JVal.recMeasure o2
decreasing_by
  all_goals simp_wf
  all_goals first
    | omega
    | (simp [JVal.measure, JVal.recMeasure, JVal.arrMeasure] <;> omega)
    | (have hlk := measure_lookup_getD_le o2 key; simp [JVal.recMeasure] <;> omega)
    | (simp only [Bool.and_eq_true] at h
       have h1 := recMeasure_jsEntries_lt v1 h.1
       have h2 := recMeasure_jsEntries_lt v2 h.2
       omega)
def JVal.arrayEquals (l1 l2 : List JVal) : Bool :=
  (l1.length == l2.length) && JVal.arrayEqualsGo l1 l2
termination_by JVal.arrMeasure l1 + JVal.arrMeasure l2 + 1
decreasing_by
  all_goals simp_wf
  all_goals first
    | omega
    | (simp [JVal.measure, JVal.recMeasure, JVal.arrMeasure] <;> omega)
    | (have hlk := measure_lookup_getD_le o2 key; simp [JVal.recMeasure] <;> omega)
    | (simp only [Bool.and_eq_true] at h
       have h1 := recMeasure_jsEntries_lt v1 h.1
       have h2 := recMeasure_jsEntries_lt v2 h.2
       omega)
def JVal.arrayEqualsGo : List JVal → List JVal → Bool
  | [], _ => true
  | v1 :: r1, [] => JVal.arrElemEq v1 JVal.vundef && JVal.arrayEqualsGo r1 []
  | v1 :: r1, v2 :: r2 => JVal.arrElemEq v1 v2 && JVal.arrayEqualsGo r1 r2
termination_by l1 l2 => JVal.arrMeasure l1 + JVal.arrMeasure l2
decreasing_by
  all_goals simp_wf
  all_goals first
    | omega
    | (simp [JVal.measure, JVal.recMeasure, JVal.arrMeasure] <;> omega)
    | (have hlk := measure_lookup_getD_le o2 key; simp [JVal.recMeasure] <;> omega)
    | (simp only [Bool.and_eq_true] at h
       have h1 := recMeasure_jsEntries_lt v1 h.1
       have h2 := recMeasure_jsEntries_lt v2 h.2
       omega)
def JVal.arrElemEq : JVal → JVal → Bool
  | .vvo p1, .vvo p2 => JVal.shallowEqual p1 p2
  | a, b => JVal.strictEq a b
termination_by v1 v2 => v1.measure + v2.measure
decreasing_by
  all_goals simp_wf
  all_goals first
    | omega
    | (simp [JVal.measure, JVal.recMeasure, JVal.arrMeasure] <;> omega)
    | (have hlk := measure_lookup_getD_le o2 key; simp [JVal.recMeasure] <;> omega)
    | (simp only [Bool.and_eq_true] at h
       have h1 := recMeasure_jsEntries_lt v1 h.1
       have h2 := recMeasure_jsEntries_lt v2 h.2
       omega)
end

def ValueObject.equals (self : List (String × JVal))
    (valueObject : Option (List (String × JVal))) : Bool :=
  match valueObject with
  | none => false
  | some o => JVal.shallowEqual self o

mutual
def JVal.wf : JVal → Bool
  | .vvo p => JVal.wfRec p
  | .vobj f => JVal.wfRec f
  | .varr l => JVal.wfArr l
  | _ => true
def JVal.wfRec : List (String × JVal) → Bool
  | [] => true
  | (k, v) :: rest => !(rest.any (fun kv => kv.1 == k)) && JVal.wf v && JVal.wfRec rest
def JVal.wfArr : List JVal → Bool
  | [] => true
  | v :: rest => (JVal.isPrim v || JVal.isVOTy v) && JVal.wf v && JVal.wfArr rest
end

mutual
def JVal.aligned : JVal → JVal → Bool
  | .vvo p1, .vvo p2 => JVal.alignedRec p1 p2
  | .vobj f1, .vobj f2 => JVal.alignedRec f1 f2
  | .varr l1, .varr l2 => JVal.alignedArr l1 l2
  | v1, v2 => v1.isLeaf && v2.isLeaf
def JVal.alignedRec : List (String × JVal) → List (String × JVal) → Bool
  | [], [] => true
  | (k1, v1) :: r1, (k2, v2) :: r2 =>
    (k1 == k2) && JVal.aligned v1 v2 && JVal.alignedRec r1 r2
  | _, _ => false
def JVal.alignedArr : List JVal → List JVal → Bool
  | [], [] => true
  | v1 :: r1, v2 :: r2 => JVal.aligned v1 v2 && JVal.alignedArr r1 r2
  | _, _ => false
end

def JVal.sameKind : JVal → JVal → Bool
  | .vnull, .vnull => true
  | .vundef, .vundef => true
  | .vbool _, .vbool _ => true
  | .vnum _, .vnum _ => true
  | .vstr _, .vstr _ => true
  | .vdate _, .vdate _ => true
  | _, _ => false

inductive JPath where
  | stop
  | field (key : String) (rest : JPath)
  | index (i : Nat) (rest : JPath)

mutual
def JVal.getLeafV : JVal → JPath → Option JVal
  | v, .stop => if v.isLeaf then some v else none
  | .vvo p, .field k rest => JVal.getLeafR p k rest
  | .vobj f, .field k rest => JVal.getLeafR f k rest
  | .varr l, .index i rest => JVal.getLeafA l i rest
  | _, _ => none
def JVal.getLeafR : List (String × JVal) → String → JPath → Option JVal
  | [], _, _ => none
  | (k', v) :: r, k, rest =>
    if k' == k then JVal.getLeafV v rest else JVal.getLeafR r k rest
def JVal.getLeafA : List JVal → Nat → JPath → Option JVal
  | [], _, _ => none
  | v :: _, 0, rest => JVal.getLeafV v rest
  | _ :: r, i + 1, rest => JVal.getLeafA r i rest
end

mutual
def JVal.setLeafV : JVal → JPath → JVal → JVal
  | _, .stop, newLeaf => newLeaf
  | .vvo p, .field k rest, nl => .vvo (JVal.setLeafR p k rest nl)
  | .vobj f, .field k rest, nl => .vobj (JVal.setLeafR f k rest nl)
  | .varr l, .index i rest, nl => .varr (JVal.setLeafA l i rest nl)
  | v, _, _ => v
def JVal.setLeafR : List (String × JVal) → String → JPath → JVal → List (String × JVal)
  | [], _, _, _ => []
  | (k', v) :: r, k, rest, nl =>
    if k' == k then (k', JVal.setLeafV v rest nl) :: r
    else (k', v) :: JVal.setLeafR r k rest nl
def JVal.setLeafA : List JVal → Nat → JPath → JVal → List JVal
  | [], _, _, _ => []
  | v :: r, 0, rest, nl => JVal.setLeafV v rest nl :: r
  | v :: r, i + 1, rest, nl => v :: JVal.setLeafA r i rest nl
end

mutual
theorem aligned_refl : (v : JVal) → JVal.aligned v v = true
  | .vnull | .vundef | .vbool _ | .vnum _ | .vstr _ | .vdate _ => by
    simp [JVal.aligned, JVal.isLeaf]
  | .vvo p => by
    simp only [JVal.aligned]
    exact alignedRec_refl p
  | .vobj f => by
    simp only [JVal.aligned]
    exact alignedRec_refl f
  | .varr l => by
    simp only [JVal.aligned]
    exact alignedArr_refl l
theorem alignedRec_refl : (o : List (String × JVal)) → JVal.alignedRec o o = true
  | [] => by simp [JVal.alignedRec]
  | (k, v) :: r => by
    simp only [JVal.alignedRec, Bool.and_eq_true]
    exact ⟨⟨beq_self_eq_true k, aligned_refl v⟩, alignedRec_refl r⟩
theorem alignedArr_refl : (l : List JVal) → JVal.alignedArr l l = true
  | [] => by simp [JVal.alignedArr]
  | v :: r => by
    simp only [JVal.alignedArr, Bool.and_eq_true]
    exact ⟨aligned_refl v, alignedArr_refl r⟩
end

theorem alignedRec_length (o1 o2 : List (String × JVal))
    (h : JVal.alignedRec o1 o2 = true) : o1.length = o2.length := by
  induction o1 generalizing o2 with
  | nil =>
    cases o2 with
    | nil => rfl
    | cons kv r => simp [JVal.alignedRec] at h
  | cons kv1 r1 ih =>
    cases o2 with
    | nil => simp [JVal.alignedRec] at h
    | cons kv2 r2 =>
      obtain ⟨k1, v1⟩ := kv1
      obtain ⟨k2, v2⟩ := kv2
      simp only [JVal.alignedRec, Bool.and_eq_true] at h
      simp [ih r2 h.2]

theorem alignedArr_length (l1 l2 : List JVal)
    (h : JVal.alignedArr l1 l2 = true) : l1.length = l2.length := by
  induction l1 generalizing l2 with
  | nil =>
    cases l2 with
    | nil => rfl
    | cons v r => simp [JVal.alignedArr] at h
  | cons v1 r1 ih =>
    cases l2 with
    | nil => simp [JVal.alignedArr] at h
    | cons v2 r2 =>
      simp only [JVal.alignedArr, Bool.and_eq_true] at h
      simp [ih r2 h.2]

theorem propValEq_leaf_iff (v1 v2 : JVal) (h1 : v1.isLeaf = true) (h2 : v2.isLeaf = true) :
    (JVal.propValEq v1 v2 = true) ↔ v1 = v2 := by
  rw [JVal.propValEq.eq_def]
  cases v1 <;> cases v2 <;>
    simp_all [JVal.strictEq, JVal.isObjectTy, JVal.isLeaf, beq_iff_eq]

theorem shallowEqualGo_skip (o1 : List (String × JVal)) (k : String) (v : JVal)
    (r2 : List (String × JVal)) (h : ∀ kv ∈ o1, (kv.1 == k) = false) :
    JVal.shallowEqualGo o1 ((k, v) :: r2) = JVal.shallowEqualGo o1 r2 := by
  induction o1 with
  | nil => simp [JVal.shallowEqualGo]
  | cons kv rest ih =>
    obtain ⟨k', v'⟩ := kv
    have hk : (k' == k) = false := h (k', v') (List.mem_cons_self (k', v') rest)
    simp only [JVal.shallowEqualGo, List.lookup, hk]
    rw [ih (fun kv hkv => h kv (List.mem_cons_of_mem (k', v') hkv))]

theorem valeq_main_rec : ∀ n : Nat,
    (∀ v1 v2 : JVal, v1.measure + v2.measure < n → v1.wf = true → v2.wf = true →
      JVal.aligned v1 v2 = true → ((JVal.propValEq v1 v2 = true) ↔ v1 = v2)) ∧
    (∀ o1 o2 : List (String × JVal), JVal.recMeasure o1 + JVal.recMeasure o2 < n →
      JVal.wfRec o1 = true → JVal.wfRec o2 = true → JVal.alignedRec o1 o2 = true →
      ((JVal.shallowEqual o1 o2 = true) ↔ o1 = o2)) ∧
    (∀ l1 l2 : List JVal, JVal.arrMeasure l1 + JVal.arrMeasure l2 < n →
      JVal.wfArr l1 = true → JVal.wfArr l2 = true → JVal.alignedArr l1 l2 = true →
      ((JVal.arrayEqualsGo l1 l2 = true) ↔ l1 = l2)) := by
  intro n
  induction n with
  | zero =>
    refine ⟨fun v1 v2 hm => absurd hm (by omega), fun o1 o2 hm => absurd hm (by omega),
      fun l1 l2 hm => absurd hm (by omega)⟩
  | succ n ih =>
    obtain ⟨ih1, ih2, ih3⟩ := ih
    refine ⟨?_, ?_, ?_⟩
    · intro v1 v2 hm h1 h2 hal
      cases v1 <;> cases v2
      case vvo.vvo p1 p2 =>
        simp only [JVal.wf] at h1 h2
        simp only [JVal.aligned] at hal
        simp only [JVal.measure] at hm
        have hiff := ih2 p1 p2 (by omega) h1 h2 hal
        simp [JVal.propValEq, hiff]
      case vobj.vobj f1 f2 =>
        simp only [JVal.wf] at h1 h2
        simp only [JVal.aligned] at hal
        simp only [JVal.measure] at hm
        have hiff := ih2 f1 f2 (by omega) h1 h2 hal
        rw [JVal.propValEq.eq_def]
        simp [JVal.isObjectTy, JVal.jsEntries, hiff]
      case varr.varr l1 l2 =>
        simp only [JVal.wf] at h1 h2
        simp only [JVal.aligned] at hal
        simp only [JVal.measure] at hm
        have hlen := alignedArr_length l1 l2 hal
        have hiff := ih3 l1 l2 (by omega) h1 h2 hal
        simp [JVal.propValEq, JVal.arrayEquals, hlen, hiff]
      all_goals
        solve
          | (apply propValEq_leaf_iff <;> simp [JVal.isLeaf])
          | simp [JVal.aligned, JVal.isLeaf] at hal
    · intro o1 o2 hm h1 h2 hal
      cases o1 with
      | nil =>
        cases o2 with
        | nil => simp [JVal.shallowEqual, JVal.shallowEqualGo]
        | cons kv r => simp [JVal.alignedRec] at hal
      | cons kv1 r1 =>
        cases o2 with
        | nil => simp [JVal.alignedRec] at hal
        | cons kv2 r2 =>
          obtain ⟨k1, v1⟩ := kv1
          obtain ⟨k2, v2⟩ := kv2
          simp only [JVal.alignedRec, Bool.and_eq_true] at hal
          obtain ⟨⟨hk, hav⟩, har⟩ := hal
          have hk' : k1 = k2 := eq_of_beq hk
          subst hk'
          simp only [JVal.wfRec, Bool.and_eq_true, Bool.not_eq_true'] at h1 h2
          obtain ⟨⟨hno1, hwv1⟩, hwr1⟩ := h1
          obtain ⟨⟨hno2, hwv2⟩, hwr2⟩ := h2
          simp only [JVal.recMeasure] at hm
          have hlen : r1.length = r2.length := alignedRec_length r1 r2 har
          have hmem : ∀ kv ∈ r1, (kv.1 == k1) = false := by
            intro kv hkv
            by_contra hcon
            simp only [Bool.not_eq_false] at hcon
            have hany : r1.any (fun kv => kv.1 == k1) = true :=
              List.any_eq_true.mpr ⟨kv, hkv, hcon⟩
            rw [hany] at hno1
            exact Bool.noConfusion hno1
          have hskip := shallowEqualGo_skip r1 k1 v2 r2 hmem
          have hiv := ih1 v1 v2 (by omega) hwv1 hwv2 hav
          have hir := ih2 r1 r2 (by omega) hwr1 hwr2 har
          have hGor : (JVal.shallowEqualGo r1 r2 = true) ↔ r1 = r2 := by
            rw [← hir]
            simp [JVal.shallowEqual, hlen]
          have lhs_eq : JVal.shallowEqual ((k1, v1) :: r1) ((k1, v2) :: r2)
              = (JVal.propValEq v1 v2 && JVal.shallowEqualGo r1 r2) := by
            simp [JVal.shallowEqual, JVal.shallowEqualGo, List.lookup, hlen, hskip]
          rw [lhs_eq, Bool.and_eq_true, hiv, hGor]
          simp
    · intro l1 l2 hm h1 h2 hal
      cases l1 with
      | nil =>
        cases l2 with
        | nil => simp [JVal.arrayEqualsGo]
        | cons v r => simp [JVal.alignedArr] at hal
      | cons v1 r1 =>
        cases l2 with
        | nil => simp [JVal.alignedArr] at hal
        | cons v2 r2 =>
          simp only [JVal.alignedArr, Bool.and_eq_true] at hal
          obtain ⟨hav, har⟩ := hal
          simp only [JVal.wfArr, Bool.and_eq_true] at h1 h2
          obtain ⟨⟨hkind1, hwv1⟩, hwr1⟩ := h1
          obtain ⟨⟨hkind2, hwv2⟩, hwr2⟩ := h2
          simp only [JVal.arrMeasure] at hm
          have hir := ih3 r1 r2 (by omega) hwr1 hwr2 har
          have helem : (JVal.arrElemEq v1 v2 = true) ↔ v1 = v2 := by
            cases v1 <;> cases v2
            case vvo.vvo p1 p2 =>
              simp only [JVal.wf] at hwv1 hwv2
              simp only [JVal.aligned] at hav
              simp only [JVal.measure] at hm
              have hiff := ih2 p1 p2 (by omega) hwv1 hwv2 hav
              simp [JVal.arrElemEq, hiff]
            all_goals
              solve
                | simp [JVal.arrElemEq.eq_def, JVal.strictEq]
                | simp [JVal.isPrim, JVal.isVOTy] at hkind1
                | simp [JVal.isPrim, JVal.isVOTy] at hkind2
                | simp [JVal.aligned, JVal.isLeaf] at hav
          simp only [JVal.arrayEqualsGo, Bool.and_eq_true]
          rw [helem, hir]
          simp

theorem shallowEqual_eq_iff (o1 o2 : List (String × JVal)) (h1 : JVal.wfRec o1 = true)
    (h2 : JVal.wfRec o2 = true) (hal : JVal.alignedRec o1 o2 = true) :
    (JVal.shallowEqual o1 o2 = true) ↔ o1 = o2 :=
  (valeq_main_rec (JVal.recMeasure o1 + JVal.recMeasure o2 + 1)).2.1 o1 o2 (by omega) h1 h2 hal

theorem sameKind_isLeaf (a b : JVal) (h : JVal.sameKind a b = true) :
    a.isLeaf = true ∧ b.isLeaf = true := by
  cases a <;> cases b <;> simp_all [JVal.sameKind, JVal.isLeaf]

theorem sameKind_kind_eq (a b : JVal) (h : JVal.sameKind a b = true) :
    JVal.isPrim b = JVal.isPrim a ∧ JVal.isVOTy b = JVal.isVOTy a := by
  cases a <;> cases b <;> simp_all [JVal.sameKind, JVal.isPrim, JVal.isVOTy]

theorem leaf_wf (a : JVal) (h : a.isLeaf = true) : a.wf = true := by
  cases a <;> simp_all [JVal.isLeaf, JVal.wf]

theorem aligned_of_leaves (a b : JVal) (ha : a.isLeaf = true) (hb : b.isLeaf = true) :
    JVal.aligned a b = true := by
  cases a <;> cases b <;> simp_all [JVal.aligned, JVal.isLeaf]

theorem keys_any_eq (r r' : List (String × JVal))
    (hk : r'.map Prod.fst = r.map Prod.fst) (c : String) :
    r'.any (fun kv => kv.1 == c) = r.any (fun kv => kv.1 == c) := by
  induction r' generalizing r with
  | nil =>
    have : r = [] := by
      cases r with
      | nil => rfl
      | cons hd tl => simp at hk
    rw [this]
  | cons hd tl ih =>
    cases r with
    | nil => simp at hk
    | cons hd2 tl2 =>
      simp only [List.map_cons, List.cons.injEq] at hk
      simp only [List.any_cons, hk.1, ih tl2 hk.2]

/-- Statement bundles for the setLeaf path lemmas: replacing the leaf
reached by a path with a same-kind leaf keeps the value aligned with and
as well-formed as the original, and the new leaf is read back by the same
path. -/
def SetLeafOkV (path : JPath) : Prop :=
  ∀ v old nl : JVal, JVal.getLeafV v path = some old → JVal.sameKind old nl = true →
    (JVal.aligned v (JVal.setLeafV v path nl) = true) ∧
    (v.wf = true → (JVal.setLeafV v path nl).wf = true) ∧
    (JVal.getLeafV (JVal.setLeafV v path nl) path = some nl) ∧
    (JVal.isPrim (JVal.setLeafV v path nl) = JVal.isPrim v ∧
     JVal.isVOTy (JVal.setLeafV v path nl) = JVal.isVOTy v)

def SetLeafOkR (path : JPath) : Prop :=
  ∀ (o : List (String × JVal)) (k : String) (old nl : JVal),
    JVal.getLeafR o k path = some old → JVal.sameKind old nl = true →
    (JVal.alignedRec o (JVal.setLeafR o k path nl) = true) ∧
    (JVal.wfRec o = true → JVal.wfRec (JVal.setLeafR o k path nl) = true) ∧
    (JVal.getLeafR (JVal.setLeafR o k path nl) k path = some nl) ∧
    ((JVal.setLeafR o k path nl).map Prod.fst = o.map Prod.fst)

def SetLeafOkA (path : JPath) : Prop :=
  ∀ (l : List JVal) (i : Nat) (old nl : JVal),
    JVal.getLeafA l i path = some old → JVal.sameKind old nl = true →
    (JVal.alignedArr l (JVal.setLeafA l i path nl) = true) ∧
    (JVal.wfArr l = true → JVal.wfArr (JVal.setLeafA l i path nl) = true) ∧
    (JVal.getLeafA (JVal.setLeafA l i path nl) i path = some nl)

theorem setLeafR_props (rest : JPath) (hV : SetLeafOkV rest) : SetLeafOkR rest := by
  intro o
  induction o with
  | nil =>
    intro k old nl hget
    simp [JVal.getLeafR] at hget
  | cons hd tl ih =>
    intro k old nl hget hkind
    obtain ⟨k', v⟩ := hd
    by_cases hkk : (k' == k) = true
    · simp only [JVal.getLeafR, hkk, if_true] at hget
      have hv := hV v old nl hget hkind
      refine ⟨?_, ?_, ?_, ?_⟩
      · simp only [JVal.setLeafR, hkk, if_true, JVal.alignedRec, Bool.and_eq_true]
        exact ⟨⟨beq_self_eq_true k', hv.1⟩, alignedRec_refl tl⟩
      · intro hwf
        simp only [JVal.wfRec, Bool.and_eq_true] at hwf
        simp only [JVal.setLeafR, hkk, if_true, JVal.wfRec, Bool.and_eq_true]
        exact ⟨⟨hwf.1.1, hv.2.1 hwf.1.2⟩, hwf.2⟩
      · simp only [JVal.setLeafR, hkk, if_true, JVal.getLeafR]
        exact hv.2.2.1
      · simp [JVal.setLeafR, hkk]
    · have hkk' : (k' == k) = false := by
        simp only [Bool.not_eq_true] at hkk
        exact hkk
      simp only [JVal.getLeafR, hkk', Bool.false_eq_true, if_false] at hget
      have htl := ih k old nl hget hkind
      refine ⟨?_, ?_, ?_, ?_⟩
      · simp only [JVal.setLeafR, hkk', Bool.false_eq_true, if_false, JVal.alignedRec,
          Bool.and_eq_true]
        exact ⟨⟨beq_self_eq_true k', aligned_refl v⟩, htl.1⟩
      · intro hwf
        simp only [JVal.wfRec, Bool.and_eq_true] at hwf
        simp only [JVal.setLeafR, hkk', Bool.false_eq_true, if_false, JVal.wfRec,
          Bool.and_eq_true]
        refine ⟨⟨?_, hwf.1.2⟩, htl.2.1 hwf.2⟩
        rw [keys_any_eq tl (JVal.setLeafR tl k rest nl) htl.2.2.2 k']
        exact hwf.1.1
      · simp only [JVal.setLeafR, hkk', Bool.false_eq_true, if_false, JVal.getLeafR]
        exact htl.2.2.1
      · simp only [JVal.setLeafR, hkk', Bool.false_eq_true, if_false, List.map_cons]
        rw [htl.2.2.2]

theorem setLeafA_props (rest : JPath) (hV : SetLeafOkV rest) : SetLeafOkA rest := by
  intro l
  induction l with
  | nil =>
    intro i old nl hget
    simp [JVal.getLeafA] at hget
  | cons v r ih =>
    intro i old nl hget hkind
    cases i with
    | zero =>
      simp only [JVal.getLeafA] at hget
      have hv := hV v old nl hget hkind
      refine ⟨?_, ?_, ?_⟩
      · simp only [JVal.setLeafA, JVal.alignedArr, Bool.and_eq_true]
        exact ⟨hv.1, alignedArr_refl r⟩
      · intro hwf
        simp only [JVal.wfArr, Bool.and_eq_true] at hwf
        simp only [JVal.setLeafA, JVal.wfArr, Bool.and_eq_true]
        refine ⟨⟨?_, hv.2.1 hwf.1.2⟩, hwf.2⟩
        rw [hv.2.2.2.1, hv.2.2.2.2]
        exact hwf.1.1
      · simp only [JVal.setLeafA, JVal.getLeafA]
        exact hv.2.2.1
    | succ j =>
      simp only [JVal.getLeafA] at hget
      have htl := ih j old nl hget hkind
      refine ⟨?_, ?_, ?_⟩
      · simp only [JVal.setLeafA, JVal.alignedArr, Bool.and_eq_true]
        exact ⟨aligned_refl v, htl.1⟩
      · intro hwf
        simp only [JVal.wfArr, Bool.and_eq_true] at hwf
        simp only [JVal.setLeafA, JVal.wfArr, Bool.and_eq_true]
        exact ⟨hwf.1, htl.2.1 hwf.2⟩
      · simp only [JVal.setLeafA, JVal.getLeafA]
        exact htl.2.2

theorem setLeaf_ok : ∀ path : JPath, SetLeafOkV path := by
  intro path
  induction path with
  | stop =>
    intro v old nl hget hkind
    simp only [JVal.getLeafV] at hget
    by_cases h : v.isLeaf = true
    · rw [if_pos h] at hget
      have hov : v = old := Option.some.inj hget
      subst hov
      have hlf := sameKind_isLeaf v nl hkind
      have hke := sameKind_kind_eq v nl hkind
      refine ⟨?_, ?_, ?_, ?_, ?_⟩
      · simp only [JVal.setLeafV]
        exact aligned_of_leaves v nl hlf.1 hlf.2
      · intro hwf
        simp only [JVal.setLeafV]
        exact leaf_wf nl hlf.2
      · simp [JVal.setLeafV, JVal.getLeafV, hlf.2]
      · simp only [JVal.setLeafV]
        exact hke.1
      · simp only [JVal.setLeafV]
        exact hke.2
    · simp [h] at hget
  | field k rest ih =>
    intro v old nl hget hkind
    have hR := setLeafR_props rest ih
    cases v
    case vvo p =>
      simp only [JVal.getLeafV] at hget
      have h := hR p k old nl hget hkind
      refine ⟨?_, ?_, ?_, ?_, ?_⟩
      · simp only [JVal.setLeafV, JVal.aligned]
        exact h.1
      · intro hwf
        simp only [JVal.wf] at hwf
        simp only [JVal.setLeafV, JVal.wf]
        exact h.2.1 hwf
      · simp only [JVal.setLeafV, JVal.getLeafV]
        exact h.2.2.1
      · simp [JVal.setLeafV, JVal.isPrim]
      · simp [JVal.setLeafV, JVal.isVOTy]
    case vobj f =>
      simp only [JVal.getLeafV] at hget
      have h := hR f k old nl hget hkind
      refine ⟨?_, ?_, ?_, ?_, ?_⟩
      · simp only [JVal.setLeafV, JVal.aligned]
        exact h.1
      · intro hwf
        simp only [JVal.wf] at hwf
        simp only [JVal.setLeafV, JVal.wf]
        exact h.2.1 hwf
      · simp only [JVal.setLeafV, JVal.getLeafV]
        exact h.2.2.1
      · simp [JVal.setLeafV, JVal.isPrim]
      · simp [JVal.setLeafV, JVal.isVOTy]
    all_goals simp [JVal.getLeafV] at hget
  | index i rest ih =>
    intro v old nl hget hkind
    have hA := setLeafA_props rest ih
    cases v
    case varr l =>
      simp only [JVal.getLeafV] at hget
      have h := hA l i old nl hget hkind
      refine ⟨?_, ?_, ?_, ?_, ?_⟩
      · simp only [JVal.setLeafV, JVal.aligned]
        exact h.1
      · intro hwf
        simp only [JVal.wf] at hwf
        simp only [JVal.setLeafV, JVal.wf]
        exact h.2.1 hwf
      · simp only [JVal.setLeafV, JVal.getLeafV]
        exact h.2.2
      · simp [JVal.setLeafV, JVal.isPrim]
      · simp [JVal.setLeafV, JVal.isVOTy]
    all_goals simp [JVal.getLeafV] at hget

/-- Claim C7: two ValueObject instances whose props records are deeply
structurally equal satisfy equals() even when they are distinct instances
(in the model, a distinct instance with deep-equal props — dates compared
by instant, nested value objects by their own equality, arrays of value
objects element-wise — is the same JVal record, so this is equals on the
same record), and changing any leaf value of one props record (replacing
the leaf reached by any path with a different same-kind leaf) makes
equals() false.  Well-formedness restricts records to unique keys and
array elements to primitives or nested value objects, the shapes the
claim enumerates. -/
theorem valueObject_equals_deep_structural :
    (∀ props : List (String × JVal), JVal.wfRec props = true →
      ValueObject.equals props (some props) = true) ∧
    (∀ (props props' : List (String × JVal)) (path : JPath) (old nl : JVal),
      JVal.wfRec props = true →
      JVal.getLeafV (JVal.vobj props) path = some old →
      JVal.sameKind old nl = true → nl ≠ old →
      JVal.setLeafV (JVal.vobj props) path nl = JVal.vobj props' →
      ValueObject.equals props (some props') = false) := by
  constructor
  · intro props h
    have hiff := shallowEqual_eq_iff props props h h (alignedRec_refl props)
    simp only [ValueObject.equals]
    exact hiff.mpr rfl
  · intro props props' path old nl hwf hget hkind hne hset
    have hok := setLeaf_ok path (JVal.vobj props) old nl hget hkind
    rw [hset] at hok
    obtain ⟨hal, hwfp, hgetnew, -⟩ := hok
    have hwfv : (JVal.vobj props).wf = true := by
      simp only [JVal.wf]
      exact hwf
    have hwf' := hwfp hwfv
    simp only [JVal.wf] at hwf'
    simp only [JVal.aligned] at hal
    by_contra hcon
    simp only [ValueObject.equals] at hcon
    have htrue : JVal.shallowEqual props props' = true := by
      cases hb : JVal.shallowEqual props props' with
      | false => exact absurd hb hcon
      | true => rfl
    have heq : props = props' := (shallowEqual_eq_iff props props' hwf hwf' hal).mp htrue
    rw [← heq] at hgetnew
    exact hne (Option.some.inj (hget.symm.trans hgetnew)).symm

/-- Concrete props record used to witness C7: a string, a date and an
array holding a nested value object. -/
def sampleProps : List (String × JVal) :=
  [("name", JVal.vstr "a"), ("when", JVal.vdate 5),
   ("tags", JVal.varr [JVal.vvo [("x", JVal.vnum 1)]])]

/-- The same record with the one leaf reached by samplePath changed. -/
def samplePropsChanged : List (String × JVal) :=
  [("name", JVal.vstr "a"), ("when", JVal.vdate 5),
   ("tags", JVal.varr [JVal.vvo [("x", JVal.vnum 2)]])]

def samplePath : JPath := JPath.field "tags" (JPath.index 0 (JPath.field "x" JPath.stop))

/-- Witness for C7 at the sample record: reflexive equality holds, and
changing the nested leaf 1 to 2 breaks it. -/
theorem valueObject_equals_deep_structural_witness :
    ValueObject.equals sampleProps (some sampleProps) = true ∧
    ValueObject.equals sampleProps (some samplePropsChanged) = false := by
  have hwf : JVal.wfRec sampleProps = true := by
    simp [sampleProps, JVal.wfRec, JVal.wf, JVal.wfArr, JVal.isPrim, JVal.isVOTy]
  constructor
  · exact valueObject_equals_deep_structural.1 sampleProps hwf
  · refine valueObject_equals_deep_structural.2 sampleProps samplePropsChanged samplePath
      (JVal.vnum 1) (JVal.vnum 2) hwf ?_ ?_ ?_ ?_
    · simp [sampleProps, samplePath, JVal.getLeafV, JVal.getLeafR, JVal.getLeafA,
        JVal.isLeaf]
    · simp [JVal.sameKind]
    · simp
    · simp [sampleProps, samplePropsChanged, samplePath, JVal.setLeafV, JVal.setLeafR,
        JVal.setLeafA]
